import Mathlib

/-!
# CasinoRuin: shallow embedding and verification

Shallow embedding of the CasinoRuin Monte Carlo simulator
(`src/CasinoRuin/Source.cpp` and `src/CasinoRuin/main.cpp`).

Modelling conventions:
* C++ `double` bankrolls, bets and probabilities are modelled as exact
  rationals (`ℚ`); all bankroll updates in the program are sums and
  differences of the configured constants, so the rational model tracks the
  intended real-number semantics of the algorithm.
* One call to `distribution(generator)` yields one element of an abstract
  draw stream `u : ℕ → ℚ`; a whole RNG family (`std::mt19937` composed with
  `std::uniform_real_distribution`) is abstracted as a function
  `stream : ℕ → ℕ → ℚ` from the 32-bit seed to the stream it generates.
* The wall clock read by `std::chrono::system_clock::now().time_since_epoch().count()`
  is an explicit input `clock : ℕ`.
-/

namespace CasinoRuin

/-- Embedding of the seeding statement of both `simulateSingleRun` variants:
`unsigned seed = std::chrono::system_clock::now().time_since_epoch().count() + runIndex;`.
The wall-clock reading is an explicit input, and the conversion to `unsigned`
wraps modulo 2^32. -/
def trialSeed (clock runIndex : ℕ) : ℕ :=
  (clock + runIndex) % 4294967296

/-- One bankroll update of the bet loop:
`if (distribution(generator) < houseWinProb) currentBankroll += betAmount; else currentBankroll -= betAmount;`
with `u0` the value drawn for this bet. -/
def betStep (bet p u0 bank : ℚ) : ℚ :=
  if u0 < p then bank + bet else bank - bet

/-- Embedding of the bet loop of `simulateSingleRun` in `Source.cpp`
(lines 31-53).  The first component is the returned final bankroll.  The
second and third components are ghost observations of the same execution:
the number of draws consumed (one per loop iteration actually executed,
none after the early `return`), and whether the function returned through
the in-loop ruin `return` (`true`) or through the final `return` after the
loop completed (`false`). -/
def runTrial (bet p : ℚ) : ℕ → (ℕ → ℚ) → ℚ → ℚ × ℕ × Bool
  | 0, _, bank => (bank, 0, false)
  | n + 1, u, bank =>
      if betStep bet p (u 0) bank < bet then
        (betStep bet p (u 0) bank, 1, true)
      else
        ((runTrial bet p n (fun k => u (k + 1)) (betStep bet p (u 0) bank)).1,
         (runTrial bet p n (fun k => u (k + 1)) (betStep bet p (u 0) bank)).2.1 + 1,
         (runTrial bet p n (fun k => u (k + 1)) (betStep bet p (u 0) bank)).2.2)

/-- Ghost trajectory of the bet loop: the bankroll after `j` bets have been
performed starting from `bank`, consuming draws `u 0, …, u (j-1)`. -/
def bankAfter (bet p : ℚ) : ℕ → (ℕ → ℚ) → ℚ → ℚ
  | 0, _, bank => bank
  | j + 1, u, bank => bankAfter bet p j (fun k => u (k + 1)) (betStep bet p (u 0) bank)

/-- Embedding of `simulateSingleRun` from `Source.cpp` (lines 20-54),
including the seeding from the wall clock and the run index. -/
def simulateSingleRun (stream : ℕ → ℕ → ℚ) (clock : ℕ)
    (initialHouseBankroll betAmount : ℚ) (numBets : ℕ) (houseWinProb : ℚ)
    (runIndex : ℕ) : ℚ × ℕ × Bool :=
  runTrial betAmount houseWinProb numBets (stream (trialSeed clock runIndex))
    initialHouseBankroll

/-- Embedding of the bet loop of the `bool`-returning `simulateSingleRun`
in `main.cpp` (lines 16-50): returns `true` on the in-loop ruin `return`,
`false` when the loop completes, paired with the ghost count of draws
consumed. -/
def runTrialB (bet p : ℚ) : ℕ → (ℕ → ℚ) → ℚ → Bool × ℕ
  | 0, _, _ => (false, 0)
  | n + 1, u, bank =>
      if betStep bet p (u 0) bank < bet then
        (true, 1)
      else
        ((runTrialB bet p n (fun k => u (k + 1)) (betStep bet p (u 0) bank)).1,
         (runTrialB bet p n (fun k => u (k + 1)) (betStep bet p (u 0) bank)).2 + 1)

/-- The surviving subsequence of the final bankrolls: those with
`!(finalBankroll < betAmount)`, exactly the `else` branch of the split loop
in `printBankrollHistogram` (`Source.cpp` lines 70-79). -/
def survivorsOf (finalBankrolls : List ℚ) (betAmount : ℚ) : List ℚ :=
  finalBankrolls.filter (fun x => !decide (x < betAmount))

/-- The number of ruined runs: those with `finalBankroll < betAmount`
(`Source.cpp` lines 70-73). -/
def ruinCountOf (finalBankrolls : List ℚ) (betAmount : ℚ) : ℕ :=
  (finalBankrolls.filter (fun x => decide (x < betAmount))).length

/-- Running minimum of a list, as computed by the fold
`if (finalBankroll < minBankroll) minBankroll = finalBankroll;` starting
from `std::numeric_limits<double>::max()`; for a non-empty list this is the
least element (the `[]` case is unreachable behind the
`numSurvivors == 0` guard). -/
def minSurv : List ℚ → ℚ
  | [] => 0
  | x :: xs => xs.foldl min x

/-- Running maximum of a list, as computed by the fold
`if (finalBankroll > maxBankroll) maxBankroll = finalBankroll;` starting
from `std::numeric_limits<double>::lowest()`; for a non-empty list this is
the greatest element. -/
def maxSurv : List ℚ → ℚ
  | [] => 0
  | x :: xs => xs.foldl max x

/-- The bin key computed in the populate loop:
`binKey = minBankroll + std::floor((bankroll - minBankroll) / binWidth) * binWidth;`. -/
def binKeyOf (m w x : ℚ) : ℚ :=
  m + ⌊(x - m) / w⌋ * w

/-- Which bin of the map `bins` the populate loop increments for survivor `x`
(`Source.cpp` lines 105-128), with bins indexed `0, …, K-1` in increasing
key order (the `std::map` keys `m + i·w` are strictly increasing in `i`
since the fixed-up width is positive):
* `bankroll == maxBankroll` increments `bins.rbegin()`, the last bin `K-1`;
* otherwise the key from `binKeyOf` is looked up by `bins.find(binKey)`
  among the keys `m + i·w`; `none` models a failed lookup (no increment).
The `binWidth == 0` branch of the loop is retained although it is dead code
after the width fix-up. -/
def binTarget (m M w : ℚ) (K : ℕ) (x : ℚ) : Option ℕ :=
  if x = M then some (K - 1)
  else
    (List.range K).find?
      (fun i => decide (m + i * w = if w = 0 then m else binKeyOf m w x))

/-- The final count of bin `i`: the number of survivors whose increment the
populate loop directed at bin `i` (increments commute, so the final map
value is this count). -/
def binCountAt (m M w : ℚ) (K : ℕ) (surv : List ℚ) (i : ℕ) : ℕ :=
  (surv.filter (fun x => decide (binTarget m M w K x = some i))).length

/-- The analysis state that `printBankrollHistogram` computes before
rendering: survivor count, ruin count, min/max surviving bankroll, the
(fixed-up) bin width, and the bins of the `std::map` in key order as
(lower edge, count) pairs. -/
structure HistOutput where
  numSurvivors : ℕ
  ruinCount : ℕ
  minBankroll : ℚ
  maxBankroll : ℚ
  binWidth : ℚ
  bins : List (ℚ × ℕ)
deriving DecidableEq

/-- The local `binWidth` of `printBankrollHistogram` after its fix-up:
`double binWidth = (maxBankroll - minBankroll) / numBins;` followed by
`if (binWidth == 0) { binWidth = 100.0; }` (`Source.cpp` lines 90-96). -/
def binWidthOf (finalBankrolls : List ℚ) (betAmount : ℚ) (numBins : ℕ) : ℚ :=
  let surv := survivorsOf finalBankrolls betAmount
  let w0 := (maxSurv surv - minSurv surv) / numBins
  if w0 = 0 then 100 else w0

/-- Embedding of `printBankrollHistogram` (`Source.cpp` lines 63-128):
split into ruined and surviving runs, early-return `none` when no run
survives, compute min/max, width `(M - m) / K` fixed up to `100.0` when it
is zero, initialise `K` bins keyed `m + i·w`, and populate them. -/
def printBankrollHistogram (finalBankrolls : List ℚ) (betAmount : ℚ)
    (numBins : ℕ) : Option HistOutput :=
  let surv := survivorsOf finalBankrolls betAmount
  if surv.isEmpty then none
  else
    let m := minSurv surv
    let M := maxSurv surv
    let w := binWidthOf finalBankrolls betAmount numBins
    some ⟨surv.length, ruinCountOf finalBankrolls betAmount, m, M, w,
      (List.range numBins).map
        (fun (i : ℕ) => (m + (i : ℚ) * w, binCountAt m M w numBins surv i))⟩

/-- Embedding of the per-bankroll driver loop of `main` in `Source.cpp`
(lines 210-222): run trials `0, …, R-1`, append each final bankroll to
`finalBankrolls`, and increment `ruinCount` when the final bankroll is
strictly below the bet amount.  Returns `(ruinCount, finalBankrolls)`. -/
def campaignLoop (trialFinal : ℕ → ℚ) (bet : ℚ) : ℕ → ℕ × List ℚ
  | 0 => (0, [])
  | R + 1 =>
      ((campaignLoop trialFinal bet R).1 +
         (if trialFinal R < bet then 1 else 0),
       (campaignLoop trialFinal bet R).2 ++ [trialFinal R])

/-- The ruin probability computed by the driver:
`double ruinProbability = static_cast<double>(ruinCount) / TOTAL_RUNS;`. -/
def ruinProbability (ruinCount totalRuns : ℕ) : ℚ :=
  (ruinCount : ℚ) / (totalRuns : ℚ)

/-- The configuration parameters of `main` in `Source.cpp` (lines 171-192),
generalised to a record so that behaviour on other parameter values can be
stated. -/
structure CampaignConfig where
  houseWinProb : ℚ
  betAmount : ℚ
  betsPerRun : ℕ
  totalRuns : ℕ
  histogramBins : ℕ
  bankrollsToTest : List ℚ
deriving DecidableEq

/-- The hard-coded configuration of `main` in `Source.cpp`. -/
def hardCodedConfig : CampaignConfig :=
  ⟨5 / 9, 25, 100, 1000000, 15, [500]⟩

/-- Embedding of `main` in `Source.cpp` (lines 169-241): for each starting
bankroll run the campaign loop, and return the per-bankroll results
together with the process exit code.  `main` contains no validation of the
configuration and no early-exit path: its only `return` statement is
`return 0`, so the exit code is `0` whatever the configuration. -/
def mainRun (stream : ℕ → ℕ → ℚ) (clock : ℕ) (cfg : CampaignConfig) :
    List (ℕ × List ℚ) × ℕ :=
  (cfg.bankrollsToTest.map (fun startBankroll =>
      campaignLoop
        (fun i => (simulateSingleRun stream clock startBankroll cfg.betAmount
            cfg.betsPerRun cfg.houseWinProb i).1)
        cfg.betAmount cfg.totalRuns),
   0)

/-- Modelled from the spec: the validity predicate on configurations from
sections 6 and 7 (probability in [0, 1], positive bet amount, positive
counts, non-empty bankroll list).  The repository contains no validation
code; this predicate only expresses which configurations the spec calls
valid. -/
def specValidConfig (cfg : CampaignConfig) : Prop :=
  0 ≤ cfg.houseWinProb ∧ cfg.houseWinProb ≤ 1 ∧ 0 < cfg.betAmount ∧
    1 ≤ cfg.betsPerRun ∧ 1 ≤ cfg.totalRuns ∧ 1 ≤ cfg.histogramBins ∧
    cfg.bankrollsToTest ≠ []

instance (cfg : CampaignConfig) : Decidable (specValidConfig cfg) := by
  unfold specValidConfig
  infer_instance

/-- A small RNG family used to exhibit clock dependence: seed `0` draws
constantly `0`, any other seed draws constantly `1`. -/
def demoStream : ℕ → ℕ → ℚ :=
  fun s _ => if s = 0 then 0 else 1

/-- A one-bankroll, one-trial, one-bet configuration used to exhibit clock
dependence (`p = 1`: the trial wins iff its draw is strictly below 1). -/
def demoCfg : CampaignConfig :=
  ⟨1, 1, 1, 1, 1, [1]⟩

/-- A configuration with an invalid house win probability (`-1 < 0`),
small enough to evaluate the whole campaign on. -/
def invalidCfg : CampaignConfig :=
  ⟨-1, 25, 1, 1, 1, [500]⟩

/-! ## Lemmas about the trial engine loop -/

/-- The loop performs at most `n` iterations, so at most `n` draws are
consumed. -/
theorem runTrial_draws_le (bet p : ℚ) :
    ∀ (n : ℕ) (u : ℕ → ℚ) (bank : ℚ), (runTrial bet p n u bank).2.1 ≤ n := by
  intro n
  induction n with
  | zero => intro u bank; simp [runTrial]
  | succ n ih =>
      intro u bank
      by_cases h : betStep bet p (u 0) bank < bet
      · simp [runTrial, h]
      · simp only [runTrial, if_neg h]
        have := ih (fun k => u (k + 1)) (betStep bet p (u 0) bank)
        omega

/-- Unfolding the loop when the first bet of the remaining iterations
triggers the ruin return. -/
theorem runTrial_succ_of_ruin (bet p : ℚ) (n : ℕ) (u : ℕ → ℚ) (bank : ℚ)
    (hr : betStep bet p (u 0) bank < bet) :
    runTrial bet p (n + 1) u bank = (betStep bet p (u 0) bank, 1, true) := by
  simp [runTrial, hr]

/-- Unfolding the loop when the first bet of the remaining iterations does
not trigger the ruin return. -/
theorem runTrial_succ_of_cont (bet p : ℚ) (n : ℕ) (u : ℕ → ℚ) (bank : ℚ)
    (hr : ¬betStep bet p (u 0) bank < bet) :
    runTrial bet p (n + 1) u bank =
      ((runTrial bet p n (fun k => u (k + 1)) (betStep bet p (u 0) bank)).1,
       (runTrial bet p n (fun k => u (k + 1)) (betStep bet p (u 0) bank)).2.1 + 1,
       (runTrial bet p n (fun k => u (k + 1)) (betStep bet p (u 0) bank)).2.2) := by
  simp [runTrial, hr]

/-- With at least one bet requested, at least one draw is consumed. -/
theorem runTrial_one_le_draws (bet p : ℚ) (n : ℕ) (u : ℕ → ℚ) (bank : ℚ)
    (hn : 1 ≤ n) : 1 ≤ (runTrial bet p n u bank).2.1 := by
  cases n with
  | zero => omega
  | succ m =>
      by_cases h : betStep bet p (u 0) bank < bet
      · rw [runTrial_succ_of_ruin bet p m u bank h]
      · rw [runTrial_succ_of_cont bet p m u bank h]
        exact Nat.le_add_left 1 _

/-- A return through the in-loop ruin branch returns a bankroll strictly
below the bet amount. -/
theorem runTrial_ruin_lt (bet p : ℚ) :
    ∀ (n : ℕ) (u : ℕ → ℚ) (bank : ℚ),
      (runTrial bet p n u bank).2.2 = true → (runTrial bet p n u bank).1 < bet := by
  intro n
  induction n with
  | zero => intro u bank h; simp [runTrial] at h
  | succ n ih =>
      intro u bank h
      by_cases hr : betStep bet p (u 0) bank < bet
      · rw [runTrial_succ_of_ruin bet p n u bank hr]
        exact hr
      · simp only [runTrial, if_neg hr] at h ⊢
        exact ih _ _ h

/-- If the loop completed (no in-loop return), it performed all `n`
iterations, consuming exactly `n` draws. -/
theorem runTrial_noruin_draws (bet p : ℚ) :
    ∀ (n : ℕ) (u : ℕ → ℚ) (bank : ℚ),
      (runTrial bet p n u bank).2.2 = false → (runTrial bet p n u bank).2.1 = n := by
  intro n
  induction n with
  | zero => intro u bank _; simp [runTrial]
  | succ n ih =>
      intro u bank h
      by_cases hr : betStep bet p (u 0) bank < bet
      · simp [runTrial, hr] at h
      · simp only [runTrial, if_neg hr] at h ⊢
        rw [ih _ _ h]

/-- If the loop completed and either at least one bet was requested or the
starting bankroll already covered the bet, the returned bankroll covers the
bet. -/
theorem runTrial_noruin_ge (bet p : ℚ) :
    ∀ (n : ℕ) (u : ℕ → ℚ) (bank : ℚ),
      (runTrial bet p n u bank).2.2 = false → (0 < n ∨ bet ≤ bank) →
        bet ≤ (runTrial bet p n u bank).1 := by
  intro n
  induction n with
  | zero =>
      intro u bank _ hd
      rcases hd with hd | hd
      · exact absurd hd (by omega)
      · simp only [runTrial]
        exact hd
  | succ n ih =>
      intro u bank h _
      by_cases hr : betStep bet p (u 0) bank < bet
      · simp [runTrial, hr] at h
      · simp only [runTrial, if_neg hr] at h ⊢
        exact ih _ _ h (Or.inr (not_lt.mp hr))

/-- The returned bankroll is the ghost trajectory evaluated at the number
of draws consumed: the loop body is one `betStep` per consumed draw. -/
theorem runTrial_result_eq_bankAfter (bet p : ℚ) :
    ∀ (n : ℕ) (u : ℕ → ℚ) (bank : ℚ),
      (runTrial bet p n u bank).1 =
        bankAfter bet p (runTrial bet p n u bank).2.1 u bank := by
  intro n
  induction n with
  | zero => intro u bank; simp [runTrial, bankAfter]
  | succ n ih =>
      intro u bank
      by_cases hr : betStep bet p (u 0) bank < bet
      · simp [runTrial, hr, bankAfter]
      · simp only [runTrial, if_neg hr]
        rw [ih (fun k => u (k + 1)) (betStep bet p (u 0) bank)]
        rfl

/-- Every intermediate bankroll (after `j` bets, for `j` strictly before
the exit point) passed the in-loop ruin check, hence covers the bet. -/
theorem runTrial_mid_ge (bet p : ℚ) :
    ∀ (n : ℕ) (u : ℕ → ℚ) (bank : ℚ) (j : ℕ), 1 ≤ j →
      j < (runTrial bet p n u bank).2.1 → bet ≤ bankAfter bet p j u bank := by
  intro n
  induction n with
  | zero =>
      intro u bank j _ hj
      simp [runTrial] at hj
  | succ n ih =>
      intro u bank j hj1 hj
      by_cases hr : betStep bet p (u 0) bank < bet
      · rw [runTrial_succ_of_ruin bet p n u bank hr] at hj
        have hj2 : j < 1 := hj
        omega
      · simp only [runTrial, if_neg hr] at hj
        obtain ⟨j, rfl⟩ := Nat.exists_eq_add_of_le hj1
        cases j with
        | zero => simpa [bankAfter] using not_lt.mp hr
        | succ j =>
            have : bankAfter bet p (1 + (j + 1)) u bank =
                bankAfter bet p (j + 1) (fun k => u (k + 1))
                  (betStep bet p (u 0) bank) := by
              rw [Nat.add_comm 1 (j + 1)]
              rfl
            rw [this]
            exact ih _ _ (j + 1) (by omega) (by omega)

/-- Peeling the last bet instead of the first: after `j + 1` bets the
bankroll is one `betStep` with draw `u j` applied to the bankroll after `j`
bets. -/
theorem bankAfter_succ_last (bet p : ℚ) :
    ∀ (j : ℕ) (u : ℕ → ℚ) (bank : ℚ),
      bankAfter bet p (j + 1) u bank =
        betStep bet p (u j) (bankAfter bet p j u bank) := by
  intro j
  induction j with
  | zero => intro u bank; rfl
  | succ j ih =>
      intro u bank
      have : bankAfter bet p (j + 1 + 1) u bank =
          bankAfter bet p (j + 1) (fun k => u (k + 1)) (betStep bet p (u 0) bank) := rfl
      rw [this, ih]
      rfl

/-- The final bankroll moved along the bet lattice: it differs from the
starting bankroll by an integer multiple of the bet, bounded by the number
of iterations. -/
theorem runTrial_lattice (bet p : ℚ) :
    ∀ (n : ℕ) (u : ℕ → ℚ) (bank : ℚ),
      ∃ k : ℤ, (runTrial bet p n u bank).1 = bank + (k : ℚ) * bet ∧ k.natAbs ≤ n := by
  intro n
  induction n with
  | zero => intro u bank; exact ⟨0, by simp [runTrial], by simp⟩
  | succ n ih =>
      intro u bank
      by_cases hr : betStep bet p (u 0) bank < bet
      · by_cases hw : u 0 < p
        · refine ⟨1, ?_, by simp⟩
          rw [runTrial_succ_of_ruin bet p n u bank hr]
          show betStep bet p (u 0) bank = bank + ((1 : ℤ) : ℚ) * bet
          rw [betStep, if_pos hw]
          push_cast
          ring
        · refine ⟨-1, ?_, by simp⟩
          rw [runTrial_succ_of_ruin bet p n u bank hr]
          show betStep bet p (u 0) bank = bank + ((-1 : ℤ) : ℚ) * bet
          rw [betStep, if_neg hw]
          push_cast
          ring
      · obtain ⟨k, hk, hk2⟩ := ih (fun j => u (j + 1)) (betStep bet p (u 0) bank)
        by_cases hw : u 0 < p
        · refine ⟨k + 1, ?_, ?_⟩
          · rw [runTrial_succ_of_cont bet p n u bank hr]
            show (runTrial bet p n (fun j => u (j + 1)) (betStep bet p (u 0) bank)).1 =
              bank + ((k + 1 : ℤ) : ℚ) * bet
            rw [hk, betStep, if_pos hw]
            push_cast
            ring
          · have := Int.natAbs_add_le k 1
            simp only [Int.natAbs_one] at this
            omega
        · refine ⟨k - 1, ?_, ?_⟩
          · rw [runTrial_succ_of_cont bet p n u bank hr]
            show (runTrial bet p n (fun j => u (j + 1)) (betStep bet p (u 0) bank)).1 =
              bank + ((k - 1 : ℤ) : ℚ) * bet
            rw [hk, betStep, if_neg hw]
            push_cast
            ring
          · have := Int.natAbs_sub_le k 1
            simp only [Int.natAbs_one] at this
            omega

/-- The boolean-returning engine of `main.cpp` agrees step for step with
the bankroll-returning engine of `Source.cpp`: they branch identically, so
the boolean equals the ruin test on the returned bankroll, and they consume
the same draws.  The hypothesis covers the degenerate zero-iteration case,
which never arises from the else branch of the loop. -/
theorem runTrialB_eq_runTrial (bet p : ℚ) :
    ∀ (n : ℕ) (u : ℕ → ℚ) (bank : ℚ), (n = 0 → bet ≤ bank) →
      runTrialB bet p n u bank =
        (decide ((runTrial bet p n u bank).1 < bet), (runTrial bet p n u bank).2.1) := by
  intro n
  induction n with
  | zero =>
      intro u bank h
      have := h rfl
      simp [runTrialB, runTrial, not_lt.mpr this]
  | succ n ih =>
      intro u bank _
      by_cases hr : betStep bet p (u 0) bank < bet
      · simp [runTrialB, runTrial, hr]
      · have hrec := ih (fun k => u (k + 1)) (betStep bet p (u 0) bank)
          (fun _ => not_lt.mp hr)
        simp only [runTrialB, runTrial, if_neg hr, hrec]

/-! ## Lemmas about the histogram summariser -/

theorem foldl_min_le_init (xs : List ℚ) : ∀ (a : ℚ), xs.foldl min a ≤ a := by
  induction xs with
  | nil => intro a; simp
  | cons x xs ih =>
      intro a
      simp only [List.foldl_cons]
      exact le_trans (ih (min a x)) (min_le_left a x)

theorem foldl_min_le_mem (xs : List ℚ) :
    ∀ (a x : ℚ), x ∈ xs → xs.foldl min a ≤ x := by
  induction xs with
  | nil => intro a x hx; simp at hx
  | cons y ys ih =>
      intro a x hx
      simp only [List.foldl_cons]
      rcases List.mem_cons.mp hx with rfl | hx
      · exact le_trans (foldl_min_le_init ys (min a x)) (min_le_right a x)
      · exact ih (min a y) x hx

theorem foldl_min_mem_or (xs : List ℚ) :
    ∀ (a : ℚ), xs.foldl min a = a ∨ xs.foldl min a ∈ xs := by
  induction xs with
  | nil => intro a; simp
  | cons y ys ih =>
      intro a
      simp only [List.foldl_cons]
      rcases ih (min a y) with h | h
      · rcases min_choice a y with hm | hm
        · exact Or.inl (h.trans hm)
        · exact Or.inr (List.mem_cons.mpr (Or.inl (h.trans hm)))
      · exact Or.inr (List.mem_cons.mpr (Or.inr h))

theorem foldl_max_init_le (xs : List ℚ) : ∀ (a : ℚ), a ≤ xs.foldl max a := by
  induction xs with
  | nil => intro a; simp
  | cons x xs ih =>
      intro a
      simp only [List.foldl_cons]
      exact le_trans (le_max_left a x) (ih (max a x))

theorem foldl_max_mem_le (xs : List ℚ) :
    ∀ (a x : ℚ), x ∈ xs → x ≤ xs.foldl max a := by
  induction xs with
  | nil => intro a x hx; simp at hx
  | cons y ys ih =>
      intro a x hx
      simp only [List.foldl_cons]
      rcases List.mem_cons.mp hx with rfl | hx
      · exact le_trans (le_max_right a x) (foldl_max_init_le ys (max a x))
      · exact ih (max a y) x hx

theorem foldl_max_mem_or (xs : List ℚ) :
    ∀ (a : ℚ), xs.foldl max a = a ∨ xs.foldl max a ∈ xs := by
  induction xs with
  | nil => intro a; simp
  | cons y ys ih =>
      intro a
      simp only [List.foldl_cons]
      rcases ih (max a y) with h | h
      · rcases max_choice a y with hm | hm
        · exact Or.inl (h.trans hm)
        · exact Or.inr (List.mem_cons.mpr (Or.inl (h.trans hm)))
      · exact Or.inr (List.mem_cons.mpr (Or.inr h))

/-- The running minimum of a non-empty list bounds every element. -/
theorem minSurv_le (l : List ℚ) (x : ℚ) (hx : x ∈ l) : minSurv l ≤ x := by
  cases l with
  | nil => simp at hx
  | cons y ys =>
      rcases List.mem_cons.mp hx with rfl | hx
      · exact foldl_min_le_init ys x
      · exact foldl_min_le_mem ys y x hx

/-- Every element bounds the running maximum of a non-empty list. -/
theorem le_maxSurv (l : List ℚ) (x : ℚ) (hx : x ∈ l) : x ≤ maxSurv l := by
  cases l with
  | nil => simp at hx
  | cons y ys =>
      rcases List.mem_cons.mp hx with rfl | hx
      · exact foldl_max_init_le ys x
      · exact foldl_max_mem_le ys y x hx

/-- The running minimum of a non-empty list is attained. -/
theorem minSurv_mem (l : List ℚ) (hl : l ≠ []) : minSurv l ∈ l := by
  cases l with
  | nil => exact absurd rfl hl
  | cons y ys =>
      rcases foldl_min_mem_or ys y with h | h
      · exact List.mem_cons.mpr (Or.inl h)
      · exact List.mem_cons.mpr (Or.inr h)

/-- The running maximum of a non-empty list is attained. -/
theorem maxSurv_mem (l : List ℚ) (hl : l ≠ []) : maxSurv l ∈ l := by
  cases l with
  | nil => exact absurd rfl hl
  | cons y ys =>
      rcases foldl_max_mem_or ys y with h | h
      · exact List.mem_cons.mpr (Or.inl h)
      · exact List.mem_cons.mpr (Or.inr h)

/-- Searching a list left to right returns the unique element satisfying
the predicate when the predicate characterises exactly that element. -/
theorem find?_eq_some_of_unique (q : ℕ → Bool) (j : ℕ)
    (hq : ∀ i, q i = true ↔ i = j) :
    ∀ (l : List ℕ), j ∈ l → l.find? q = some j := by
  intro l
  induction l with
  | nil => intro h; simp at h
  | cons a l ih =>
      intro hjl
      by_cases ha : q a = true
      · rw [List.find?_cons_of_pos _ ha, (hq a).mp ha]
      · have haj : a ≠ j := fun h => ha ((hq a).mpr h)
        rw [List.find?_cons_of_neg _ (by simp [ha])]
        exact ih (by
          rcases List.mem_cons.mp hjl with h | h
          · exact absurd h.symm haj
          · exact h)

theorem sum_map_eq_zero {α : Type} (l : List α) (f : α → ℕ)
    (h : ∀ x ∈ l, f x = 0) : (l.map f).sum = 0 := by
  induction l with
  | nil => simp
  | cons a l ih =>
      simp only [List.map_cons, List.sum_cons]
      rw [h a (List.mem_cons_self a l), ih (fun x hx => h x (List.mem_cons_of_mem a hx))]

theorem sum_map_add {α : Type} (l : List α) (f g : α → ℕ) :
    (l.map (fun i => f i + g i)).sum = (l.map f).sum + (l.map g).sum := by
  induction l with
  | nil => simp
  | cons a l ih =>
      simp only [List.map_cons, List.sum_cons, ih]
      omega

/-- Summing the indicator of bin `j` over the bin indices `0, …, K-1`
gives exactly one when `j < K`. -/
theorem sum_indicator_range (j : ℕ) :
    ∀ (K : ℕ), j < K →
      ((List.range K).map (fun i => if j = i then 1 else 0)).sum = 1 := by
  intro K
  induction K with
  | zero => intro h; omega
  | succ K ih =>
      intro hj
      rw [List.range_succ, List.map_append, List.sum_append]
      by_cases hK : j = K
      · rw [sum_map_eq_zero (List.range K) _ (fun i hi => by
          have : i < K := List.mem_range.mp hi
          simp [show j ≠ i by omega])]
        simp [hK]
      · rw [ih (by omega)]
        simp [hK]

/-- If every element of `l` is sent to some bin index below `K`, the
per-bin occurrence counts over `0, …, K-1` sum to the length of `l`:
each element is counted exactly once. -/
theorem sum_filter_counts (f : ℚ → Option ℕ) (K : ℕ) :
    ∀ (l : List ℚ), (∀ x ∈ l, ∃ i, i < K ∧ f x = some i) →
      ((List.range K).map
        (fun i => (l.filter (fun x => decide (f x = some i))).length)).sum = l.length := by
  intro l
  induction l with
  | nil => intro _; simp
  | cons a l ih =>
      intro h
      obtain ⟨j, hjK, hfa⟩ := h a (List.mem_cons_self a l)
      have hstep : ∀ i : ℕ,
          ((a :: l).filter (fun x => decide (f x = some i))).length =
            (if j = i then 1 else 0) +
              (l.filter (fun x => decide (f x = some i))).length := by
        intro i
        by_cases hji : j = i
        · simp only [List.filter_cons, hfa, hji]
          simp
          omega
        · simp [List.filter_cons, hfa, hji, Option.some_inj]
      calc ((List.range K).map
              (fun i => ((a :: l).filter (fun x => decide (f x = some i))).length)).sum
          = ((List.range K).map
              (fun i => (if j = i then 1 else 0) +
                (l.filter (fun x => decide (f x = some i))).length)).sum := by
            exact congrArg List.sum (List.map_congr_left (fun i _ => hstep i))
        _ = 1 + l.length := by
            rw [sum_map_add, sum_indicator_range j K hjK,
              ih (fun x hx => h x (List.mem_cons_of_mem a hx))]
        _ = (a :: l).length := by simp [Nat.add_comm]

/-- When no run survives, the summariser prints the empty-histogram signal
and returns before any binning. -/
theorem printBankrollHistogram_eq_none (finals : List ℚ) (bet : ℚ) (K : ℕ)
    (hs : survivorsOf finals bet = []) :
    printBankrollHistogram finals bet K = none := by
  simp [printBankrollHistogram, hs]

/-- Unfolding of the summariser in the surviving case. -/
theorem printBankrollHistogram_eq_some (finals : List ℚ) (bet : ℚ) (K : ℕ)
    (hs : survivorsOf finals bet ≠ []) :
    printBankrollHistogram finals bet K =
      some ⟨(survivorsOf finals bet).length, ruinCountOf finals bet,
        minSurv (survivorsOf finals bet), maxSurv (survivorsOf finals bet),
        binWidthOf finals bet K,
        (List.range K).map (fun (i : ℕ) =>
          (minSurv (survivorsOf finals bet) + (i : ℚ) * binWidthOf finals bet K,
           binCountAt (minSurv (survivorsOf finals bet))
             (maxSurv (survivorsOf finals bet)) (binWidthOf finals bet K) K
             (survivorsOf finals bet) i))⟩ := by
  have he : (survivorsOf finals bet).isEmpty = false := by
    rw [List.isEmpty_eq_false]
    exact hs
  simp [printBankrollHistogram, he]

/-- The survivor equal to the observed maximum is sent to the last bin
(`bins.rbegin()`). -/
theorem binTarget_of_eq_max (m M w : ℚ) (K : ℕ) :
    binTarget m M w K M = some (K - 1) := by
  simp [binTarget]

/-- A survivor strictly below the maximum is sent to the bin whose key the
floor rule computes, provided that index is in range: the lookup
`bins.find(binKey)` hits the key `m + i·w` exactly for
`i = ⌊(x - m) / w⌋`. -/
theorem binTarget_of_ne_max (m M w : ℚ) (K : ℕ) (x : ℚ) (hxM : x ≠ M)
    (hw : w ≠ 0) (h0 : 0 ≤ ⌊(x - m) / w⌋) (hK : ⌊(x - m) / w⌋ < (K : ℤ)) :
    binTarget m M w K x = some (⌊(x - m) / w⌋.toNat) := by
  have htn : ((⌊(x - m) / w⌋.toNat : ℤ)) = ⌊(x - m) / w⌋ := Int.toNat_of_nonneg h0
  unfold binTarget
  rw [if_neg hxM]
  refine find?_eq_some_of_unique _ _ ?_ _ ?_
  · intro i
    rw [decide_eq_true_iff, if_neg hw]
    unfold binKeyOf
    constructor
    · intro h
      have h2 : (i : ℚ) * w = (⌊(x - m) / w⌋ : ℚ) * w := by linarith
      have h3 : (i : ℚ) = (⌊(x - m) / w⌋ : ℚ) := mul_right_cancel₀ hw h2
      have h4 : (i : ℤ) = ⌊(x - m) / w⌋ := by exact_mod_cast h3
      omega
    · intro h
      subst h
      have : ((⌊(x - m) / w⌋.toNat : ℚ)) = ((⌊(x - m) / w⌋ : ℚ)) := by
        exact_mod_cast htn
      rw [this]
  · rw [List.mem_range]
    omega

/-- Every survivor `x` with `m ≤ x ≤ M` is sent to exactly one bin index
below `K`, and `x = M` goes to the last bin; `w` is the fixed-up width for
extreme values `m` and `M`. -/
theorem binTarget_total (m M w : ℚ) (K : ℕ) (hK : 1 ≤ K) (x : ℚ)
    (hm : m ≤ x) (hM : x ≤ M)
    (hw : w = if (M - m) / (K : ℚ) = 0 then 100 else (M - m) / (K : ℚ)) :
    ∃ i, i < K ∧ binTarget m M w K x = some i ∧ (x = M → i = K - 1) := by
  by_cases hxM : x = M
  · refine ⟨K - 1, by omega, ?_, fun _ => rfl⟩
    rw [hxM]
    exact binTarget_of_eq_max m M w K
  · have hxM2 : x < M := lt_of_le_of_ne hM hxM
    have hmM : m < M := lt_of_le_of_lt hm hxM2
    have hKQ : (0 : ℚ) < (K : ℚ) := by exact_mod_cast Nat.lt_of_lt_of_le Nat.zero_lt_one hK
    have hw0 : (M - m) / (K : ℚ) ≠ 0 := ne_of_gt (div_pos (by linarith) hKQ)
    have hwval : w = (M - m) / (K : ℚ) := by rw [hw, if_neg hw0]
    have hwpos : 0 < w := hwval ▸ div_pos (by linarith) hKQ
    have h0 : 0 ≤ ⌊(x - m) / w⌋ :=
      Int.floor_nonneg.mpr (div_nonneg (by linarith) (le_of_lt hwpos))
    have hKw : (K : ℚ) * w = M - m := by
      rw [hwval]
      exact mul_div_cancel₀ (M - m) (ne_of_gt hKQ)
    have hlt : (x - m) / w < (K : ℚ) := by
      rw [div_lt_iff₀ hwpos, hKw]
      linarith
    have hKfl : ⌊(x - m) / w⌋ < (K : ℤ) := Int.floor_lt.mpr (by exact_mod_cast hlt)
    refine ⟨⌊(x - m) / w⌋.toNat, by omega, ?_, fun hc => absurd hc hxM⟩
    exact binTarget_of_ne_max m M w K x hxM (ne_of_gt hwpos) h0 hKfl

/-! ## Lemmas about the campaign driver -/

theorem length_filter_add_length_not {α : Type} (p : α → Bool) :
    ∀ (l : List α),
      (l.filter p).length + (l.filter (fun x => !(p x))).length = l.length := by
  intro l
  induction l with
  | nil => simp
  | cons x l ih =>
      by_cases h : p x = true
      · simp only [List.filter_cons, h, Bool.not_true, if_true, Bool.false_eq_true,
          if_false, List.length_cons]
        omega
      · have h2 : p x = false := by simpa using h
        simp only [List.filter_cons, h2, Bool.not_false, if_true, Bool.false_eq_true,
          if_false, List.length_cons]
        omega

/-- Splitting the final bankrolls on the ruin test partitions them: ruined
plus surviving is everything. -/
theorem ruin_surv_partition (bet : ℚ) (l : List ℚ) :
    ruinCountOf l bet + (survivorsOf l bet).length = l.length :=
  length_filter_add_length_not (fun x => decide (x < bet)) l

theorem ruinCountOf_append (bet : ℚ) (l1 l2 : List ℚ) :
    ruinCountOf (l1 ++ l2) bet = ruinCountOf l1 bet + ruinCountOf l2 bet := by
  simp [ruinCountOf, List.filter_append]

/-- The driver loop accumulates exactly the list of trial results
`t 0, …, t (R-1)` and counts among them those below the bet amount. -/
theorem campaignLoop_eq (t : ℕ → ℚ) (bet : ℚ) :
    ∀ (R : ℕ), campaignLoop t bet R =
      (ruinCountOf ((List.range R).map t) bet, (List.range R).map t) := by
  intro R
  induction R with
  | zero => simp [campaignLoop, ruinCountOf]
  | succ R ih =>
      simp only [campaignLoop, ih]
      rw [List.range_succ, List.map_append, ruinCountOf_append]
      have : ruinCountOf ([t R]) bet = if t R < bet then 1 else 0 := by
        by_cases h : t R < bet <;> simp [ruinCountOf, h]
      simp [this]

/-! ## The claims -/

/-- C2: the trial engine starts from `B0`; at each of up to `N` iterations
it consumes one draw `u j`, adds `b` when `u j < p` (strict) and subtracts
`b` otherwise, and returns immediately after the update when the bankroll
drops strictly below `b`; if all `N` iterations complete it returns the
final bankroll.  Stated as: the bet-lattice trajectory obeys the update
rule; at least one and at most `N` draws are consumed; the result is the
trajectory at the number of draws consumed (one draw per bet performed,
none after the exit); no earlier iteration triggered the in-loop return;
the in-loop return yields a bankroll below `b`; loop completion consumes
exactly `N` draws, so fewer than `N` draws means the ruin exit was taken. -/
theorem c2_trial_engine_behaviour (B0 bet p : ℚ) (N : ℕ) (u : ℕ → ℚ)
    (_hB0 : 0 ≤ B0) (_hb : 0 < bet) (hN : 1 ≤ N) (_hp0 : 0 ≤ p) (_hp1 : p ≤ 1) :
    (∀ j : ℕ, bankAfter bet p (j + 1) u B0 =
        (if u j < p then bankAfter bet p j u B0 + bet
         else bankAfter bet p j u B0 - bet)) ∧
    1 ≤ (runTrial bet p N u B0).2.1 ∧
    (runTrial bet p N u B0).2.1 ≤ N ∧
    (runTrial bet p N u B0).1 = bankAfter bet p (runTrial bet p N u B0).2.1 u B0 ∧
    (∀ j, 1 ≤ j → j < (runTrial bet p N u B0).2.1 → bet ≤ bankAfter bet p j u B0) ∧
    ((runTrial bet p N u B0).2.2 = true → (runTrial bet p N u B0).1 < bet) ∧
    ((runTrial bet p N u B0).2.2 = false → (runTrial bet p N u B0).2.1 = N) ∧
    ((runTrial bet p N u B0).2.1 < N → (runTrial bet p N u B0).2.2 = true) := by
  refine ⟨fun j => by rw [bankAfter_succ_last]; rfl,
    runTrial_one_le_draws bet p N u B0 hN,
    runTrial_draws_le bet p N u B0,
    runTrial_result_eq_bankAfter bet p N u B0,
    runTrial_mid_ge bet p N u B0,
    runTrial_ruin_lt bet p N u B0,
    runTrial_noruin_draws bet p N u B0,
    ?_⟩
  intro hlt
  cases hfl : (runTrial bet p N u B0).2.2 with
  | true => rfl
  | false =>
      have := runTrial_noruin_draws bet p N u B0 hfl
      omega

/-- Witness for C2 at `B0 = 2`, `b = 1`, `N = 2`, `p = 1/2`, draws
`1/10, 9/10, …`. -/
theorem c2_trial_engine_behaviour_witness :
    ((0 : ℚ) ≤ 2 ∧ (0 : ℚ) < 1 ∧ (1 : ℕ) ≤ 2 ∧ (0 : ℚ) ≤ 1 / 2 ∧ (1 / 2 : ℚ) ≤ 1) ∧
    ((∀ j : ℕ, bankAfter 1 (1 / 2) (j + 1) (fun k => if k = 0 then 1 / 10 else 9 / 10) 2 =
        (if (if j = 0 then (1 / 10 : ℚ) else 9 / 10) < 1 / 2 then
          bankAfter 1 (1 / 2) j (fun k => if k = 0 then 1 / 10 else 9 / 10) 2 + 1
         else bankAfter 1 (1 / 2) j (fun k => if k = 0 then 1 / 10 else 9 / 10) 2 - 1)) ∧
    1 ≤ (runTrial 1 (1 / 2) 2 (fun k => if k = 0 then 1 / 10 else 9 / 10) 2).2.1 ∧
    (runTrial 1 (1 / 2) 2 (fun k => if k = 0 then 1 / 10 else 9 / 10) 2).2.1 ≤ 2 ∧
    (runTrial 1 (1 / 2) 2 (fun k => if k = 0 then 1 / 10 else 9 / 10) 2).1 =
      bankAfter 1 (1 / 2)
        (runTrial 1 (1 / 2) 2 (fun k => if k = 0 then 1 / 10 else 9 / 10) 2).2.1
        (fun k => if k = 0 then 1 / 10 else 9 / 10) 2 ∧
    (∀ j, 1 ≤ j →
      j < (runTrial 1 (1 / 2) 2 (fun k => if k = 0 then 1 / 10 else 9 / 10) 2).2.1 →
      1 ≤ bankAfter 1 (1 / 2) j (fun k => if k = 0 then 1 / 10 else 9 / 10) 2) ∧
    ((runTrial 1 (1 / 2) 2 (fun k => if k = 0 then 1 / 10 else 9 / 10) 2).2.2 = true →
      (runTrial 1 (1 / 2) 2 (fun k => if k = 0 then 1 / 10 else 9 / 10) 2).1 < 1) ∧
    ((runTrial 1 (1 / 2) 2 (fun k => if k = 0 then 1 / 10 else 9 / 10) 2).2.2 = false →
      (runTrial 1 (1 / 2) 2 (fun k => if k = 0 then 1 / 10 else 9 / 10) 2).2.1 = 2) ∧
    ((runTrial 1 (1 / 2) 2 (fun k => if k = 0 then 1 / 10 else 9 / 10) 2).2.1 < 2 →
      (runTrial 1 (1 / 2) 2 (fun k => if k = 0 then 1 / 10 else 9 / 10) 2).2.2 = true)) :=
  ⟨⟨by norm_num, by norm_num, by norm_num, by norm_num, by norm_num⟩,
   c2_trial_engine_behaviour 2 1 (1 / 2) 2 (fun k => if k = 0 then 1 / 10 else 9 / 10)
     (by norm_num) (by norm_num) (by norm_num) (by norm_num) (by norm_num)⟩

/-- C3: the returned final bankroll is below the bet amount exactly when
the trial ended through the in-loop ruin return; a trial whose final
bankroll covers the bet consumed exactly `N` draws (performed all `N`
bets); and the campaign driver's ruin count is exactly the number of
collected final bankrolls strictly below the bet amount. -/
theorem c3_ruin_invariant (B0 bet p : ℚ) (N : ℕ) (u : ℕ → ℚ) (hN : 1 ≤ N)
    (t : ℕ → ℚ) (R : ℕ) :
    ((runTrial bet p N u B0).1 < bet ↔ (runTrial bet p N u B0).2.2 = true) ∧
    (bet ≤ (runTrial bet p N u B0).1 → (runTrial bet p N u B0).2.1 = N) ∧
    (campaignLoop t bet R).1 =
      ((campaignLoop t bet R).2.filter (fun x => decide (x < bet))).length := by
  refine ⟨⟨?_, runTrial_ruin_lt bet p N u B0⟩, ?_, ?_⟩
  · intro hlt
    cases hfl : (runTrial bet p N u B0).2.2 with
    | true => rfl
    | false =>
        have := runTrial_noruin_ge bet p N u B0 hfl (Or.inl (by omega))
        exact absurd hlt (not_lt.mpr this)
  · intro hge
    cases hfl : (runTrial bet p N u B0).2.2 with
    | true => exact absurd (runTrial_ruin_lt bet p N u B0 hfl) (not_lt.mpr hge)
    | false => exact runTrial_noruin_draws bet p N u B0 hfl
  · rw [campaignLoop_eq]
    rfl

/-- Witness for C3 at `B0 = 2`, `b = 1`, `N = 1`, `p = 1/2`, constant draw
`9/10`, with the trivial campaign `R = 0`. -/
theorem c3_ruin_invariant_witness :
    ((1 : ℕ) ≤ 1) ∧
    (((runTrial 1 (1 / 2) 1 (fun _ => 9 / 10) 2).1 < 1 ↔
        (runTrial 1 (1 / 2) 1 (fun _ => 9 / 10) 2).2.2 = true) ∧
    (1 ≤ (runTrial 1 (1 / 2) 1 (fun _ => 9 / 10) 2).1 →
      (runTrial 1 (1 / 2) 1 (fun _ => 9 / 10) 2).2.1 = 1) ∧
    (campaignLoop (fun _ => 3) 1 0).1 =
      ((campaignLoop (fun _ => 3) 1 0).2.filter (fun x => decide (x < 1))).length) :=
  ⟨le_refl 1, c3_ruin_invariant 2 1 (1 / 2) 1 (fun _ => 9 / 10) (le_refl 1) (fun _ => 3) 0⟩

/-- C4 counterexample: with `B0 = 0`, `b = 25`, `N = 1`, `p = 1` and any
draw stream, the trial performs its first bet (consuming one draw) from
the bankroll `bankAfter 0 = 0 < 25`: a bet IS performed while the current
bankroll is strictly below the bet amount, contradicting the claim, which
explicitly includes starting bankrolls below `b`. -/
theorem c4_counterexample :
    1 ≤ (runTrial 25 1 1 (fun _ => 0) 0).2.1 ∧
    bankAfter 25 1 0 (fun _ => 0) 0 < 25 := by
  constructor
  · exact runTrial_one_le_draws 25 1 1 (fun _ => 0) 0 (le_refl 1)
  · show (0 : ℚ) < 25
    norm_num

/-- C4 (amended): for every trial whose starting bankroll covers the bet
(`B0 ≥ b`), no bet is performed while the current bankroll is strictly
below `b`: every bankroll from which a bet is made (the trajectory at
`j` for `j` below the number of bets performed) is at least `b`.  The
original claim fails for `B0 < b` because the ruin check runs only after
each bet, so the first bet is always performed. -/
theorem c4_no_bet_from_ruined_bankroll (B0 bet p : ℚ) (N : ℕ) (u : ℕ → ℚ)
    (h : bet ≤ B0) :
    ∀ j, j < (runTrial bet p N u B0).2.1 → bet ≤ bankAfter bet p j u B0 := by
  intro j hj
  cases j with
  | zero => exact h
  | succ j => exact runTrial_mid_ge bet p N u B0 (j + 1) (by omega) hj

/-- Witness for the amended C4 at `B0 = 100`, `b = 25`. -/
theorem c4_no_bet_from_ruined_bankroll_witness :
    ((25 : ℚ) ≤ 100) ∧
    (∀ j, j < (runTrial 25 (1 / 2) 3 (fun _ => 0) 100).2.1 →
      25 ≤ bankAfter 25 (1 / 2) j (fun _ => 0) 100) :=
  ⟨by norm_num,
   c4_no_bet_from_ruined_bankroll 100 25 (1 / 2) 3 (fun _ => 0) (by norm_num)⟩

/-- C9: whatever the draw stream, the returned final bankroll lies on the
bet lattice: it equals `B0 + k·b` for an integer `k` with `|k| ≤ N`. -/
theorem c9_bet_lattice (B0 bet p : ℚ) (N : ℕ) (u : ℕ → ℚ) :
    ∃ k : ℤ, (runTrial bet p N u B0).1 = B0 + (k : ℚ) * bet ∧ k.natAbs ≤ N :=
  runTrial_lattice bet p N u B0

/-- C10: on identical configurations and identical draw streams, the
boolean engine of `main.cpp` returns `true` exactly when the
bankroll-returning engine of `Source.cpp` returns a final bankroll
strictly below the bet amount, and both consume the same number of
draws. -/
theorem c10_engines_equivalent (B0 bet p : ℚ) (N : ℕ) (u : ℕ → ℚ)
    (hN : 1 ≤ N) :
    ((runTrialB bet p N u B0).1 = true ↔ (runTrial bet p N u B0).1 < bet) ∧
    (runTrialB bet p N u B0).2 = (runTrial bet p N u B0).2.1 := by
  have h := runTrialB_eq_runTrial bet p N u B0 (fun h0 => absurd h0 (by omega))
  rw [h]
  constructor
  · simp
  · rfl

/-- C7: for every campaign (any trial-result function, bet amount and
trial count `R`), the driver's ruin count plus the summariser's surviving
count equals `R`, and the reported ruin probability is the ruin count
divided by `R`. -/
theorem c7_conservation_of_count (t : ℕ → ℚ) (bet : ℚ) (R : ℕ) :
    (campaignLoop t bet R).1 +
      (survivorsOf (campaignLoop t bet R).2 bet).length = R ∧
    ruinProbability (campaignLoop t bet R).1 R =
      ((campaignLoop t bet R).1 : ℚ) / (R : ℚ) := by
  constructor
  · rw [campaignLoop_eq]
    have h := ruin_surv_partition bet ((List.range R).map t)
    simpa using h
  · rfl

/-- C6: with at least one survivor and `K ≥ 1` bins, the histogram's bin
counts sum to the number of survivors; every survivor is sent to exactly
one bin index below `K`, and a survivor equal to the observed maximum
is sent to the last bin. -/
theorem c6_histogram_completeness (finals : List ℚ) (bet : ℚ) (K : ℕ)
    (hK : 1 ≤ K) (hs : survivorsOf finals bet ≠ []) :
    ∃ out, printBankrollHistogram finals bet K = some out ∧
      (out.bins.map Prod.snd).sum = (survivorsOf finals bet).length ∧
      out.numSurvivors = (survivorsOf finals bet).length ∧
      (∀ x ∈ survivorsOf finals bet, ∃ i, i < K ∧
        binTarget out.minBankroll out.maxBankroll out.binWidth K x = some i ∧
        (x = out.maxBankroll → i = K - 1)) := by
  have hw : binWidthOf finals bet K =
      (if (maxSurv (survivorsOf finals bet) - minSurv (survivorsOf finals bet)) /
          (K : ℚ) = 0 then 100
       else (maxSurv (survivorsOf finals bet) - minSurv (survivorsOf finals bet)) /
          (K : ℚ)) := rfl
  have htotal : ∀ x ∈ survivorsOf finals bet, ∃ i, i < K ∧
      binTarget (minSurv (survivorsOf finals bet)) (maxSurv (survivorsOf finals bet))
        (binWidthOf finals bet K) K x = some i ∧
      (x = maxSurv (survivorsOf finals bet) → i = K - 1) := by
    intro x hx
    exact binTarget_total (minSurv (survivorsOf finals bet))
      (maxSurv (survivorsOf finals bet)) (binWidthOf finals bet K) K hK x
      (minSurv_le (survivorsOf finals bet) x hx)
      (le_maxSurv (survivorsOf finals bet) x hx) hw
  refine ⟨_, printBankrollHistogram_eq_some finals bet K hs, ?_, rfl, htotal⟩
  simp only [List.map_map]
  have hcomp : (Prod.snd ∘ fun (i : ℕ) =>
      (minSurv (survivorsOf finals bet) + (i : ℚ) * binWidthOf finals bet K,
       binCountAt (minSurv (survivorsOf finals bet))
         (maxSurv (survivorsOf finals bet)) (binWidthOf finals bet K) K
         (survivorsOf finals bet) i)) =
      fun (i : ℕ) => binCountAt (minSurv (survivorsOf finals bet))
        (maxSurv (survivorsOf finals bet)) (binWidthOf finals bet K) K
        (survivorsOf finals bet) i := rfl
  rw [hcomp]
  exact sum_filter_counts
    (binTarget (minSurv (survivorsOf finals bet)) (maxSurv (survivorsOf finals bet))
      (binWidthOf finals bet K) K) K (survivorsOf finals bet)
    (fun x hx => (htotal x hx).elim (fun i hi => ⟨i, hi.1, hi.2.1⟩))

/-- Witness for C6 at `finals = [10, 30, 40]`, `b = 25`, `K = 2`. -/
theorem c6_histogram_completeness_witness :
    ((1 : ℕ) ≤ 2 ∧ survivorsOf [10, 30, 40] 25 ≠ []) ∧
    (∃ out, printBankrollHistogram [10, 30, 40] 25 2 = some out ∧
      (out.bins.map Prod.snd).sum = (survivorsOf [10, 30, 40] 25).length ∧
      out.numSurvivors = (survivorsOf [10, 30, 40] 25).length ∧
      (∀ x ∈ survivorsOf [10, 30, 40] 25, ∃ i, i < 2 ∧
        binTarget out.minBankroll out.maxBankroll out.binWidth 2 x = some i ∧
        (x = out.maxBankroll → i = 2 - 1))) :=
  ⟨⟨by norm_num, by decide⟩,
   c6_histogram_completeness [10, 30, 40] 25 2 (by norm_num) (by decide)⟩

/-- C1 counterexample: for `finals = [50]`, `b = 25`, `K = 2` the surviving
set is `[50]` (non-empty, all equal, so `m = M`), yet the single survivor
is placed in the LAST bin, not the first: the bin counts are `[0, 1]`, and
the first bin's count (`0`) differs from the survivor count (`1`).  The
claim asserts every survivor lands in the first bin and all other bins are
empty, which fails here. -/
theorem c1_counterexample :
    (printBankrollHistogram [50] 25 2).map (fun o => o.bins.map Prod.snd) =
      some [0, 1] ∧
    (printBankrollHistogram [50] 25 2).map (fun o => (o.bins.headD (0, 0)).2) ≠
      some (survivorsOf [50] 25).length := by
  constructor
  · decide
  · decide

/-- C1 (amended): when the surviving set is non-empty with all survivors
equal (`m = M`), the width is set to the positive sentinel `100`, `K` bins
are still emitted, every survivor is placed in the LAST bin (highest lower
edge, via the `bankroll == maxBankroll` shortcut to `bins.rbegin()`), and
all bins other than the last have count zero. -/
theorem c1_degenerate_width_last_bin (finals : List ℚ) (bet : ℚ) (K : ℕ)
    (hK : 1 ≤ K) (hs : survivorsOf finals bet ≠ [])
    (hall : ∀ x ∈ survivorsOf finals bet, ∀ y ∈ survivorsOf finals bet, x = y) :
    ∃ out, printBankrollHistogram finals bet K = some out ∧
      out.binWidth = 100 ∧ (0 : ℚ) < out.binWidth ∧
      out.bins.length = K ∧
      out.bins.map Prod.snd =
        List.replicate (K - 1) 0 ++ [(survivorsOf finals bet).length] := by
  have hMm : maxSurv (survivorsOf finals bet) = minSurv (survivorsOf finals bet) :=
    hall _ (maxSurv_mem _ hs) _ (minSurv_mem _ hs)
  have hw : binWidthOf finals bet K = 100 := by
    simp only [binWidthOf]
    rw [hMm]
    simp
  have htgt : ∀ x ∈ survivorsOf finals bet,
      binTarget (minSurv (survivorsOf finals bet)) (maxSurv (survivorsOf finals bet))
        (binWidthOf finals bet K) K x = some (K - 1) := by
    intro x hx
    have hxM : x = maxSurv (survivorsOf finals bet) :=
      hall _ hx _ (maxSurv_mem _ hs)
    rw [hxM]
    exact binTarget_of_eq_max _ _ _ K
  have hcnt : ∀ i : ℕ,
      binCountAt (minSurv (survivorsOf finals bet)) (maxSurv (survivorsOf finals bet))
        (binWidthOf finals bet K) K (survivorsOf finals bet) i =
        if K - 1 = i then (survivorsOf finals bet).length else 0 := by
    intro i
    unfold binCountAt
    by_cases hi : K - 1 = i
    · rw [if_pos hi]
      rw [List.filter_congr (q := fun _ => true) (fun x hx => by
        rw [htgt x hx, hi]
        simp)]
      simp
    · rw [if_neg hi]
      rw [List.filter_congr (q := fun _ => false) (fun x hx => by
        rw [htgt x hx]
        simp only [decide_eq_false_iff_not, Option.some_inj]
        omega)]
      simp
  refine ⟨_, printBankrollHistogram_eq_some finals bet K hs, hw, ?_, ?_, ?_⟩
  · rw [hw]
    norm_num
  · simp
  · simp only [List.map_map]
    obtain ⟨K0, rfl⟩ : ∃ K0, K = K0 + 1 := ⟨K - 1, by omega⟩
    rw [List.range_succ, List.map_append]
    have hlast : (Prod.snd ∘ fun (i : ℕ) =>
        (minSurv (survivorsOf finals bet) + (i : ℚ) * binWidthOf finals bet (K0 + 1),
         binCountAt (minSurv (survivorsOf finals bet))
           (maxSurv (survivorsOf finals bet)) (binWidthOf finals bet (K0 + 1))
           (K0 + 1) (survivorsOf finals bet) i)) K0 =
        (survivorsOf finals bet).length := by
      simp only [Function.comp_apply]
      rw [hcnt K0]
      simp
    have hinit : (List.range K0).map (Prod.snd ∘ fun (i : ℕ) =>
        (minSurv (survivorsOf finals bet) + (i : ℚ) * binWidthOf finals bet (K0 + 1),
         binCountAt (minSurv (survivorsOf finals bet))
           (maxSurv (survivorsOf finals bet)) (binWidthOf finals bet (K0 + 1))
           (K0 + 1) (survivorsOf finals bet) i)) =
        List.replicate K0 0 := by
      rw [List.eq_replicate_iff]
      constructor
      · simp
      · intro b hb
        obtain ⟨i, hi, hib⟩ := List.mem_map.mp hb
        have hiK : i < K0 := List.mem_range.mp hi
        rw [← hib]
        simp only [Function.comp_apply]
        rw [hcnt i]
        rw [if_neg (by omega)]
    rw [List.map_cons, List.map_nil, hlast, hinit]
    simp

/-- Witness for the amended C1 at `finals = [50, 50]`, `b = 25`, `K = 3`. -/
theorem c1_degenerate_width_last_bin_witness :
    ((1 : ℕ) ≤ 3 ∧ survivorsOf [50, 50] 25 ≠ [] ∧
      (∀ x ∈ survivorsOf [50, 50] 25, ∀ y ∈ survivorsOf [50, 50] 25, x = y)) ∧
    (∃ out, printBankrollHistogram [50, 50] 25 3 = some out ∧
      out.binWidth = 100 ∧ (0 : ℚ) < out.binWidth ∧
      out.bins.length = 3 ∧
      out.bins.map Prod.snd =
        List.replicate (3 - 1) 0 ++ [(survivorsOf [50, 50] 25).length]) :=
  ⟨⟨by norm_num, by decide, by decide⟩,
   c1_degenerate_width_last_bin [50, 50] 25 3 (by norm_num) (by decide) (by decide)⟩

/-- C5: the program's per-trial seed is the wall-clock epoch count plus the
trial index, so trial results are NOT a function of (configuration,
campaign seed, trial index): there is no campaign-seed input at all, the
seed changes with the clock at a fixed trial index, distinct (clock, index)
pairs collide, and two campaign executions that differ only in the
wall-clock reading produce different ruin counts and final-bankroll
vectors for the same RNG family. -/
theorem c5_wall_clock_dependence :
    trialSeed 0 0 ≠ trialSeed 1 0 ∧
    trialSeed 0 1 = trialSeed 1 0 ∧
    mainRun demoStream 0 demoCfg ≠ mainRun demoStream 1 demoCfg := by
  refine ⟨by decide, by decide, ?_⟩
  intro h
  have h0 : (mainRun demoStream 0 demoCfg).1 = [((0 : ℕ), [(2 : ℚ)])] := by
    norm_num [mainRun, demoCfg, campaignLoop, simulateSingleRun, trialSeed,
      demoStream, runTrial, betStep]
  have h1 : (mainRun demoStream 1 demoCfg).1 = [((1 : ℕ), [(0 : ℚ)])] := by
    norm_num [mainRun, demoCfg, campaignLoop, simulateSingleRun, trialSeed,
      demoStream, runTrial, betStep]
  rw [h, h1] at h0
  simp at h0

/-- C8 counterexample: on a configuration whose house win probability
`-1` lies outside `[0, 1]`, `main` performs no validation: it still runs
its trials (one final bankroll is collected for the configured starting
bankroll) and exits with code `0`, not a non-zero code.  This refutes the
claim that invalid configurations are detected, aborted and signalled by a
non-zero exit code. -/
theorem c8_counterexample :
    ¬specValidConfig invalidCfg ∧
    (mainRun (fun _ _ => 0) 0 invalidCfg).2 = 0 ∧
    (mainRun (fun _ _ => 0) 0 invalidCfg).1.map (fun pr => pr.2.length) = [1] := by
  refine ⟨by norm_num [specValidConfig, invalidCfg], rfl, rfl⟩

/-- C8 (amended): the program performs no configuration validation at all:
its configuration is hard-coded (and that hard-coded configuration is
valid), and `main`'s only return statement is `return 0`, so the exit code
is `0` for every configuration, valid or invalid. -/
theorem c8_no_validation_always_exit_zero (stream : ℕ → ℕ → ℚ) (clock : ℕ)
    (cfg : CampaignConfig) :
    specValidConfig hardCodedConfig ∧ (mainRun stream clock cfg).2 = 0 :=
  ⟨by norm_num [specValidConfig, hardCodedConfig], rfl⟩

/-- Witness for C10 at `B0 = 2`, `b = 1`, `N = 2`, `p = 1/2`, constant
draw `9/10`. -/
theorem c10_engines_equivalent_witness :
    ((1 : ℕ) ≤ 2) ∧
    (((runTrialB 1 (1 / 2) 2 (fun _ => 9 / 10) 2).1 = true ↔
        (runTrial 1 (1 / 2) 2 (fun _ => 9 / 10) 2).1 < 1) ∧
    (runTrialB 1 (1 / 2) 2 (fun _ => 9 / 10) 2).2 =
      (runTrial 1 (1 / 2) 2 (fun _ => 9 / 10) 2).2.1) :=
  ⟨by norm_num, c10_engines_equivalent 2 1 (1 / 2) 2 (fun _ => 9 / 10) (by norm_num)⟩

end CasinoRuin
